import Mathlib

/-!
Shallow embedding of the DFA library in `src/fsa/dfa.hpp`: the `Dfa` class
(states, alphabet, transition table, initial state, accepting states) and the
`DfaPlayer` replay engine with its observer callbacks.

Modelling conventions:
* `std::set` fields become `Finset`; `std::map<std::pair<State,Alpha>, State>`
  becomes an association list into which `insertT` inserts exactly like
  `std::map::insert` does: a key already present keeps its old value.
* C++ members that a constructor leaves uninitialized (the automaton's `_init`
  before any state is added, the player's `_curState` and `_lastSymb`) are
  modelled by an explicit "garbage" parameter supplied to the constructor: the
  indeterminate initial content of the member.
* Observer callbacks become an event trace: each entry pairs the event with the
  player state at the moment the callback is invoked.
-/

set_option autoImplicit false

namespace DfaSpec

variable {S A : Type} [DecidableEq S] [DecidableEq A]

/-- Lookup in the transition table; models `std::map::find` on key `(s, a)`. -/
def lookupT : List ((S × A) × S) → (S × A) → Option S
  | [], _ => none
  | (k, d) :: rest, key => if k = key then some d else lookupT rest key

/-- Insert into the transition table; models `std::map::insert`, which leaves
the table unchanged when the key is already present. -/
def insertT (tbl : List ((S × A) × S)) (key : S × A) (d : S) :
    List ((S × A) × S) :=
  match lookupT tbl key with
  | some _ => tbl
  | none => (key, d) :: tbl

/-- The `Dfa` class data members: `_states`, `_init`, `_alphabet`,
`_transTable`, `_finStates`. -/
structure Dfa (S A : Type) where
  states : Finset S
  init : S
  alphabet : Finset A
  transTable : List ((S × A) × S)
  finStates : Finset S
  deriving DecidableEq

/-- Default constructor `Dfa()`: all containers empty; `_init` is left
uninitialized, holding the indeterminate value `g`. -/
def Dfa.mkD (g : S) : Dfa S A :=
  ⟨∅, g, ∅, [], ∅⟩

/-- Member function `Dfa::addState`: when the state set is empty the new state
also becomes the initial state, then the state is inserted. -/
def Dfa.addState (m : Dfa S A) (s : S) : Dfa S A :=
  ⟨insert s m.states, if m.states.card = 0 then s else m.init, m.alphabet,
   m.transTable, m.finStates⟩

/-- Member function `Dfa::addSymbol`. -/
def Dfa.addSymbol (m : Dfa S A) (a : A) : Dfa S A :=
  ⟨m.states, m.init, insert a m.alphabet, m.transTable, m.finStates⟩

/-- Member function `Dfa::addTrans`: `addState(s); addState(d); addSymbol(a);`
then `_transTable.insert({{s, a}, d})`. -/
def Dfa.addTrans (m : Dfa S A) (s : S) (a : A) (d : S) : Dfa S A :=
  let m1 := ((m.addState s).addState d).addSymbol a
  ⟨m1.states, m1.init, m1.alphabet, insertT m1.transTable (s, a) d,
   m1.finStates⟩

/-- Member function `Dfa::addFinState`: inserts into `_states` and
`_finStates` directly, without going through `addState`. -/
def Dfa.addFinState (m : Dfa S A) (s : S) : Dfa S A :=
  ⟨insert s m.states, m.init, m.alphabet, m.transTable,
   insert s m.finStates⟩

/-- Member function `Dfa::setInitState`: `addState(init)` then assign
`_init`. -/
def Dfa.setInitState (m : Dfa S A) (s : S) : Dfa S A :=
  let m1 := m.addState s
  ⟨m1.states, s, m1.alphabet, m1.transTable, m1.finStates⟩

/-- Bulk constructor `Dfa(init, l, fin)`: `addTrans` for every triple of `l`
in order, then `addState(init); _init = init;`, then `addFinState` for every
element of `fin`. `g` is the indeterminate content of `_init` in the
default-constructed object the constructor starts from. -/
def Dfa.mk3 (g : S) (initSt : S) (l : List (S × A × S)) (fin : List S) :
    Dfa S A :=
  let m1 := l.foldl (fun m t => m.addTrans t.1 t.2.1 t.2.2) (Dfa.mkD g)
  let m2 := m1.addState initSt
  let m3 : Dfa S A := ⟨m2.states, initSt, m2.alphabet, m2.transTable, m2.finStates⟩
  fin.foldl (fun m s => m.addFinState s) m3

/-- Getter `Dfa::getInitState`. -/
def Dfa.getInitState (m : Dfa S A) : S := m.init

/-- Getter `Dfa::getStatesNum` (`_states.size()`). -/
def Dfa.getStatesNum (m : Dfa S A) : Nat := m.states.card

/-- Getter `Dfa::getSymbolsNum` (`_alphabet.size()`). -/
def Dfa.getSymbolsNum (m : Dfa S A) : Nat := m.alphabet.card

/-- Getter `Dfa::getTransNum` (`_transTable.size()`). -/
def Dfa.getTransNum (m : Dfa S A) : Nat := m.transTable.length

/-- Getter `Dfa::getFinStatesNum` (`_finStates.size()`). -/
def Dfa.getFinStatesNum (m : Dfa S A) : Nat := m.finStates.card

/-- Member function `Dfa::getTrans`: the C++ version writes the destination
to an out-parameter and returns a `bool`; the embedding returns an
`Option`. -/
def Dfa.getTransO (m : Dfa S A) (s : S) (a : A) : Option S :=
  lookupT m.transTable (s, a)

/-- Member function `Dfa::hasState`. -/
def Dfa.hasState (m : Dfa S A) (s : S) : Bool := s ∈ m.states

/-- Member function `Dfa::hasFinState`. -/
def Dfa.hasFinState (m : Dfa S A) (s : S) : Bool := s ∈ m.finStates

/-- Enumeration `DfaPlayer::Result`. -/
inductive Result where
  | Ok
  | NoTrans
  | NonFinState
  deriving DecidableEq

/-- Callback methods of `DfaPlayer::IEventListener`. -/
inductive Event (S A : Type) where
  | stateChanging (preS newS : S)
  | transFired (s : S) (a : A) (d : S)
  deriving DecidableEq

/-- The `DfaPlayer` mutable data members `_curState`, `_curPos`, `_lastSymb`
(the automaton reference and the listener pointer are passed separately). -/
structure PlayerSt (S A : Type) where
  curState : S
  curPos : Int
  lastSymb : A
  deriving DecidableEq

/-- Constructor `DfaPlayer(dfa, cb)`: only `_curPos = -1` is assigned;
`_curState` and `_lastSymb` stay uninitialized, holding the indeterminate
values `gs` and `ga`. -/
def mkPlayer (gs : S) (ga : A) : PlayerSt S A :=
  ⟨gs, -1, ga⟩

/-- Trace of observer callbacks: each event is paired with the player state at
the moment the callback is invoked. -/
abbrev Trace (S A : Type) := List (Event S A × PlayerSt S A)

/-- Member function `DfaPlayer::replaySymb`: store the symbol in `_lastSymb`,
look the transition up from the current state; on absence report `false`; on
success fire `onTransFired(_curState, a, nextSt)` before assigning
`_curState` and incrementing `_curPos`. -/
def replaySymb (dfa : Dfa S A) (p : PlayerSt S A) (a : A) :
    Bool × PlayerSt S A × Trace S A :=
  match dfa.getTransO p.curState a with
  | none => (false, ⟨p.curState, p.curPos, a⟩, [])
  | some d =>
      (true, ⟨d, p.curPos + 1, a⟩,
       [(Event.transFired p.curState a d, ⟨p.curState, p.curPos, a⟩)])

/-- Loop body of `DfaPlayer::play` plus the final accepting-state check. -/
def playGo (dfa : Dfa S A) : PlayerSt S A → List A → Result × PlayerSt S A × Trace S A
  | p, [] =>
      (if dfa.hasFinState p.curState then Result.Ok else Result.NonFinState,
       p, [])
  | p, a :: rest =>
      match replaySymb dfa p a with
      | (false, p1, evs) => (Result.NoTrans, p1, evs)
      | (true, p1, evs) =>
          let r := playGo dfa p1 rest
          (r.1, r.2.1, evs ++ r.2.2)

/-- Member function `DfaPlayer::play`: `init()` sets `_curState` to the
automaton's initial state and `_curPos` to `0` and fires
`onStateChanging(_curState, _curState)`; then each symbol is replayed in
order; a failed `replaySymb` yields `Result::NoTrans`; otherwise the final
state is checked against the accepting set. -/
def play (dfa : Dfa S A) (p : PlayerSt S A) (seq : List A) :
    Result × PlayerSt S A × Trace S A :=
  let p1 : PlayerSt S A := ⟨dfa.getInitState, 0, p.lastSymb⟩
  let r := playGo dfa p1 seq
  (r.1, r.2.1, (Event.stateChanging p1.curState p1.curState, p1) :: r.2.2)

/-- Result component of a `play` call. -/
def playResult (dfa : Dfa S A) (p : PlayerSt S A) (seq : List A) : Result :=
  (play dfa p seq).1

/-- Final player state of a `play` call: what `getCurState()`, `getCurPos()`
and `getLastSymbol()` report afterwards. -/
def playFinal (dfa : Dfa S A) (p : PlayerSt S A) (seq : List A) :
    PlayerSt S A :=
  (play dfa p seq).2.1

/-- Observer-callback trace of a `play` call: the calls an attached
`IEventListener` receives, in order. -/
def playTrace (dfa : Dfa S A) (p : PlayerSt S A) (seq : List A) : Trace S A :=
  (play dfa p seq).2.2

/-- Iterated transition lookup: the state reached after consuming a whole
sequence, or `none` as soon as a transition is missing. -/
def deltaStar (dfa : Dfa S A) : S → List A → Option S
  | s, [] => some s
  | s, a :: rest =>
      match dfa.getTransO s a with
      | none => none
      | some d => deltaStar dfa d rest

/-- Transitions fired while consuming a sequence from a state; truncated at
the first missing transition. -/
def fires (dfa : Dfa S A) : S → List A → List (S × A × S)
  | _, [] => []
  | s, a :: rest =>
      match dfa.getTransO s a with
      | none => []
      | some d => (s, a, d) :: fires dfa d rest

/-- Callback trace produced by the replay loop from a given state and
position; truncated at the first missing transition. -/
def traceGo (dfa : Dfa S A) : S → Int → List A → Trace S A
  | _, _, [] => []
  | s, c, a :: rest =>
      match dfa.getTransO s a with
      | none => []
      | some d => (Event.transFired s a d, ⟨s, c, a⟩) :: traceGo dfa d (c + 1) rest

/-- Destination supplied by the first triple of `l` whose source state and
symbol match `(s, a)`. -/
def firstDest : List (S × A × S) → S → A → Option S
  | [], _, _ => none
  | t :: rest, s, a =>
      if (t.1, t.2.1) = (s, a) then some t.2.2 else firstDest rest s a

/-- Apply `Dfa::addTrans` to each triple of `l` in order. -/
def applyTransList (m : Dfa S A) (l : List (S × A × S)) : Dfa S A :=
  l.foldl (fun m t => m.addTrans t.1 t.2.1 t.2.2) m

/-- The five mutating member functions of `Dfa`, reified as data so that a
statement can quantify over arbitrary call sequences. -/
inductive Mutation (S A : Type) where
  | addState (s : S)
  | addSymbol (a : A)
  | addTrans (s : S) (a : A) (d : S)
  | addFinState (s : S)
  | setInitState (s : S)
  deriving DecidableEq

/-- Apply one mutating member function. -/
def applyMut (m : Dfa S A) : Mutation S A → Dfa S A
  | .addState s => m.addState s
  | .addSymbol a => m.addSymbol a
  | .addTrans s a d => m.addTrans s a d
  | .addFinState s => m.addFinState s
  | .setInitState s => m.setInitState s

/-- Apply a sequence of mutating member functions in order. -/
def applyMuts (m : Dfa S A) (l : List (Mutation S A)) : Dfa S A :=
  l.foldl applyMut m

/-- Whether a mutation is a `setInitState` call. -/
def isSetInit : Mutation S A → Bool
  | .setInitState _ => true
  | _ => false

/-- State that the default-initial-state rule of `addState` designates for a
call sequence on a fresh automaton: the state argument of the first
`addState` or `addTrans` call, and `none` when a state is first inserted by
`addFinState` (which bypasses `addState`) or when no state-inserting call
occurs. -/
def firstDefaultInit : List (Mutation S A) → Option S
  | [] => none
  | .addState s :: _ => some s
  | .addTrans s _ _ :: _ => some s
  | .addFinState _ :: _ => none
  | .addSymbol _ :: rest => firstDefaultInit rest
  | .setInitState _ :: _ => none

/-- Incremental construction procedure the bulk constructor is compared
against: `addTrans` for each triple in order, then `setInitState`, then
`addFinState` for each accepting state, on a default-constructed
automaton. -/
def incrementalBuild (g : S) (initSt : S) (l : List (S × A × S))
    (fin : List S) : Dfa S A :=
  let m1 := applyTransList (Dfa.mkD g) l
  let m2 := m1.setInitState initSt
  fin.foldl (fun m s => m.addFinState s) m2

/-- Overwriting insert into the transition table: a key already present gets
the new destination. -/
def insertOW : List ((S × A) × S) → (S × A) → S → List ((S × A) × S)
  | [], key, d => [(key, d)]
  | (k, d0) :: rest, key, d =>
      if k = key then (key, d) :: rest else (k, d0) :: insertOW rest key d

/-- Modelled from the spec: the bulk-construction procedure as the spec words
it, with later triples overwriting earlier ones targeting the same
(state, symbol) pair. Used only to compare the spec's description against
the implemented constructor. -/
def specOverwriteBuild (g : S) (initSt : S) (l : List (S × A × S))
    (fin : List S) : Dfa S A :=
  let step := fun (m : Dfa S A) (t : S × A × S) =>
    let m1 := ((m.addState t.1).addState t.2.2).addSymbol t.2.1
    (⟨m1.states, m1.init, m1.alphabet, insertOW m1.transTable (t.1, t.2.1) t.2.2,
      m1.finStates⟩ : Dfa S A)
  let m1 := l.foldl step (Dfa.mkD g)
  let m2 := m1.setInitState initSt
  fin.foldl (fun m s => m.addFinState s) m2

/-- Example automaton of the spec and the test suite: accepts exactly the
strings over {'0','1'} containing "01" as a substring. -/
def exDfa : Dfa Int Char :=
  Dfa.mk3 99 0
    [(0, '1', 0), (0, '0', 1), (1, '0', 1), (1, '1', 2), (2, '0', 2), (2, '1', 2)]
    [2]

/-- Example player with arbitrary garbage content for the uninitialized
members. -/
def pl0 : PlayerSt Int Char := mkPlayer 7 'z'

/-- Example automaton with a missing transition: state 1 has no outgoing
edge. -/
def pDfa : Dfa Int Char := Dfa.mk3 9 0 [(0, 'a', 1)] []

/-! Lemmas about the replay loop. -/

theorem playGo_nil (dfa : Dfa S A) (p : PlayerSt S A) :
    playGo dfa p [] =
      (if dfa.hasFinState p.curState then Result.Ok else Result.NonFinState,
       p, []) := rfl

theorem playGo_cons_none (dfa : Dfa S A) (p : PlayerSt S A) (a : A)
    (rest : List A) (h : dfa.getTransO p.curState a = none) :
    playGo dfa p (a :: rest) =
      (Result.NoTrans, ⟨p.curState, p.curPos, a⟩, []) := by
  simp [playGo, replaySymb, h]

theorem playGo_cons_some (dfa : Dfa S A) (p : PlayerSt S A) (a : A)
    (rest : List A) (d : S) (h : dfa.getTransO p.curState a = some d) :
    playGo dfa p (a :: rest) =
      ((playGo dfa ⟨d, p.curPos + 1, a⟩ rest).1,
       (playGo dfa ⟨d, p.curPos + 1, a⟩ rest).2.1,
       (Event.transFired p.curState a d, ⟨p.curState, p.curPos, a⟩) ::
         (playGo dfa ⟨d, p.curPos + 1, a⟩ rest).2.2) := by
  simp [playGo, replaySymb, h]

theorem playGo_trace (dfa : Dfa S A) (seq : List A) :
    ∀ (s : S) (c : Int) (x : A),
      (playGo dfa ⟨s, c, x⟩ seq).2.2 = traceGo dfa s c seq := by
  induction seq with
  | nil => intro s c x; rfl
  | cons a rest ih =>
      intro s c x
      cases h : dfa.getTransO s a with
      | none =>
          rw [playGo_cons_none dfa ⟨s, c, x⟩ a rest h]
          simp [traceGo, h]
      | some d =>
          rw [playGo_cons_some dfa ⟨s, c, x⟩ a rest d h]
          simp [traceGo, h, ih]

theorem playGo_success (dfa : Dfa S A) (seq : List A) :
    ∀ (s : S) (c : Int) (x : A) (s2 : S),
      deltaStar dfa s seq = some s2 →
      (playGo dfa ⟨s, c, x⟩ seq).1 =
          (if dfa.hasFinState s2 then Result.Ok else Result.NonFinState)
        ∧ (playGo dfa ⟨s, c, x⟩ seq).2.1 =
            ⟨s2, c + (seq.length : Int), seq.getLastD x⟩ := by
  induction seq with
  | nil =>
      intro s c x s2 h
      simp only [deltaStar, Option.some.injEq] at h
      subst h
      simp [playGo_nil]
  | cons a rest ih =>
      intro s c x s2 h
      simp only [deltaStar] at h
      cases hg : dfa.getTransO s a with
      | none => rw [hg] at h; simp at h
      | some d =>
          rw [hg] at h
          rw [playGo_cons_some dfa ⟨s, c, x⟩ a rest d hg]
          have hr := ih d (c + 1) a s2 h
          refine ⟨hr.1, ?_⟩
          rw [hr.2, List.getLastD_cons]
          simp [PlayerSt.mk.injEq, List.length_cons]
          ring

theorem playGo_fail (dfa : Dfa S A) (seq : List A) :
    ∀ (i : Nat) (hi : i < seq.length) (s : S) (c : Int) (x : A) (si : S),
      deltaStar dfa s (seq.take i) = some si →
      dfa.getTransO si (seq.get ⟨i, hi⟩) = none →
      (playGo dfa ⟨s, c, x⟩ seq).1 = Result.NoTrans
        ∧ (playGo dfa ⟨s, c, x⟩ seq).2.1 =
            ⟨si, c + (i : Int), seq.get ⟨i, hi⟩⟩ := by
  induction seq with
  | nil => intro i hi; exact absurd hi (by simp)
  | cons a rest ih =>
      intro i hi s c x si hrun hmiss
      cases i with
      | zero =>
          simp only [List.take_zero, deltaStar, Option.some.injEq] at hrun
          subst hrun
          rw [playGo_cons_none dfa ⟨s, c, x⟩ a rest (by simpa using hmiss)]
          simp
      | succ j =>
          simp only [List.take_succ_cons, deltaStar] at hrun
          cases hg : dfa.getTransO s a with
          | none => rw [hg] at hrun; simp at hrun
          | some d =>
              rw [hg] at hrun
              rw [playGo_cons_some dfa ⟨s, c, x⟩ a rest d hg]
              have hj : j < rest.length := by
                simpa [Nat.succ_lt_succ_iff] using hi
              have hr := ih j hj d (c + 1) a si hrun (by simpa using hmiss)
              refine ⟨hr.1, ?_⟩
              rw [hr.2]
              simp [PlayerSt.mk.injEq]
              ring

theorem playGo_indep (dfa : Dfa S A) (seq : List A) (s : S) (c : Int)
    (x y : A) :
    (playGo dfa ⟨s, c, x⟩ seq).1 = (playGo dfa ⟨s, c, y⟩ seq).1
      ∧ (playGo dfa ⟨s, c, x⟩ seq).2.1.curState
          = (playGo dfa ⟨s, c, y⟩ seq).2.1.curState
      ∧ (playGo dfa ⟨s, c, x⟩ seq).2.1.curPos
          = (playGo dfa ⟨s, c, y⟩ seq).2.1.curPos := by
  cases seq with
  | nil => simp [playGo_nil]
  | cons a rest =>
      cases h : dfa.getTransO s a with
      | none =>
          rw [playGo_cons_none dfa ⟨s, c, x⟩ a rest h,
              playGo_cons_none dfa ⟨s, c, y⟩ a rest h]
          simp
      | some d =>
          rw [playGo_cons_some dfa ⟨s, c, x⟩ a rest d h,
              playGo_cons_some dfa ⟨s, c, y⟩ a rest d h]
          simp

theorem playGo_pos (dfa : Dfa S A) (seq : List A) :
    ∀ (p : PlayerSt S A), 0 ≤ p.curPos →
      0 ≤ (playGo dfa p seq).2.1.curPos := by
  induction seq with
  | nil => intro p h; simpa [playGo_nil]
  | cons a rest ih =>
      intro p h
      cases hg : dfa.getTransO p.curState a with
      | none => rw [playGo_cons_none dfa p a rest hg]; simpa
      | some d =>
          rw [playGo_cons_some dfa p a rest d hg]
          exact ih ⟨d, p.curPos + 1, a⟩ (by simp; omega)

theorem traceGo_pos (dfa : Dfa S A) (seq : List A) :
    ∀ (s : S) (c : Int), 0 ≤ c →
      ∀ pr ∈ traceGo dfa s c seq, 0 ≤ pr.2.curPos := by
  induction seq with
  | nil => intro s c _ pr hpr; simp [traceGo] at hpr
  | cons a rest ih =>
      intro s c hc pr hpr
      cases hg : dfa.getTransO s a with
      | none => simp [traceGo, hg] at hpr
      | some d =>
          simp only [traceGo, hg] at hpr
          rcases List.mem_cons.mp hpr with h1 | h2
          · subst h1; simpa using hc
          · exact ih d (c + 1) (by omega) pr h2

theorem traceGo_src (dfa : Dfa S A) (seq : List A) :
    ∀ (s : S) (c : Int), ∀ pr ∈ traceGo dfa s c seq,
      ∀ (s0 : S) (a0 : A) (d0 : S),
        pr.1 = Event.transFired s0 a0 d0 → pr.2.curState = s0 := by
  induction seq with
  | nil => intro s c pr hpr; simp [traceGo] at hpr
  | cons a rest ih =>
      intro s c pr hpr s0 a0 d0 hev
      cases hg : dfa.getTransO s a with
      | none => simp [traceGo, hg] at hpr
      | some d =>
          simp only [traceGo, hg] at hpr
          rcases List.mem_cons.mp hpr with h1 | h2
          · subst h1
            simp only [Event.transFired.injEq] at hev
            simp [hev.1]
          · exact ih d (c + 1) pr h2 s0 a0 d0 hev

theorem traceGo_events (dfa : Dfa S A) (seq : List A) :
    ∀ (s : S) (c : Int),
      (traceGo dfa s c seq).map Prod.fst =
        (fires dfa s seq).map (fun t => Event.transFired t.1 t.2.1 t.2.2) := by
  induction seq with
  | nil => intro s c; rfl
  | cons a rest ih =>
      intro s c
      cases hg : dfa.getTransO s a with
      | none => simp [traceGo, fires, hg]
      | some d => simp [traceGo, fires, hg, ih]

theorem fires_length (dfa : Dfa S A) (seq : List A) :
    ∀ (s s2 : S), deltaStar dfa s seq = some s2 →
      (fires dfa s seq).length = seq.length := by
  induction seq with
  | nil => intro s s2 _; rfl
  | cons a rest ih =>
      intro s s2 h
      simp only [deltaStar] at h
      cases hg : dfa.getTransO s a with
      | none => rw [hg] at h; simp at h
      | some d =>
          rw [hg] at h
          simp [fires, hg, ih d s2 h]

theorem fires_symbols (dfa : Dfa S A) (seq : List A) :
    ∀ (s s2 : S), deltaStar dfa s seq = some s2 →
      (fires dfa s seq).map (fun t => t.2.1) = seq := by
  induction seq with
  | nil => intro s s2 _; rfl
  | cons a rest ih =>
      intro s s2 h
      simp only [deltaStar] at h
      cases hg : dfa.getTransO s a with
      | none => rw [hg] at h; simp at h
      | some d =>
          rw [hg] at h
          simp [fires, hg, ih d s2 h]

theorem fires_sound (dfa : Dfa S A) (seq : List A) :
    ∀ (s : S), ∀ t ∈ fires dfa s seq, dfa.getTransO t.1 t.2.1 = some t.2.2 := by
  induction seq with
  | nil => intro s t ht; simp [fires] at ht
  | cons a rest ih =>
      intro s t ht
      cases hg : dfa.getTransO s a with
      | none => simp [fires, hg] at ht
      | some d =>
          simp only [fires, hg] at ht
          rcases List.mem_cons.mp ht with h1 | h2
          · subst h1; simpa using hg
          · exact ih d t h2

/-! Lemmas about the transition table and the mutating operations. -/

theorem playResult_eq (dfa : Dfa S A) (p : PlayerSt S A) (seq : List A) :
    playResult dfa p seq =
      (playGo dfa ⟨dfa.getInitState, 0, p.lastSymb⟩ seq).1 := rfl

theorem playFinal_eq (dfa : Dfa S A) (p : PlayerSt S A) (seq : List A) :
    playFinal dfa p seq =
      (playGo dfa ⟨dfa.getInitState, 0, p.lastSymb⟩ seq).2.1 := rfl

theorem playTrace_eq (dfa : Dfa S A) (p : PlayerSt S A) (seq : List A) :
    playTrace dfa p seq =
      (Event.stateChanging dfa.getInitState dfa.getInitState,
        (⟨dfa.getInitState, 0, p.lastSymb⟩ : PlayerSt S A)) ::
        traceGo dfa dfa.getInitState 0 seq := by
  show (Event.stateChanging _ _, _) ::
      (playGo dfa ⟨dfa.getInitState, 0, p.lastSymb⟩ seq).2.2 = _
  rw [playGo_trace]

theorem lookupT_insertT_pres (tbl : List ((S × A) × S)) (k1 k : S × A)
    (d1 d : S) (h : lookupT tbl k = some d) :
    lookupT (insertT tbl k1 d1) k = some d := by
  unfold insertT
  cases h1 : lookupT tbl k1 with
  | some d0 => exact h
  | none =>
      simp only [lookupT]
      by_cases hk : k1 = k
      · subst hk; rw [h1] at h; cases h
      · rw [if_neg hk]; exact h

theorem length_insertT (tbl : List ((S × A) × S)) (k : S × A) (d : S) :
    tbl.length ≤ (insertT tbl k d).length := by
  unfold insertT
  cases h1 : lookupT tbl k <;> simp

theorem getTransO_addTrans (m : Dfa S A) (s1 : S) (a1 : A) (d1 : S)
    (s : S) (a : A) :
    (m.addTrans s1 a1 d1).getTransO s a =
      match m.getTransO s a with
      | some d => some d
      | none => if (s1, a1) = (s, a) then some d1 else none := by
  show lookupT (insertT m.transTable (s1, a1) d1) (s, a) = _
  unfold insertT
  cases h1 : lookupT m.transTable (s1, a1) with
  | some d0 =>
      cases h2 : lookupT m.transTable (s, a) with
      | some d => simp [Dfa.getTransO, h2]
      | none =>
          have hne : (s1, a1) ≠ (s, a) := by
            intro he; rw [he, h2] at h1; cases h1
          simp [Dfa.getTransO, h2, hne]
  | none =>
      simp only [lookupT]
      by_cases hk : (s1, a1) = (s, a)
      · have h2 : lookupT m.transTable (s, a) = none := by rw [← hk]; exact h1
        simp [Dfa.getTransO, hk, h2]
      · cases h2 : lookupT m.transTable (s, a) with
        | some d => simp [Dfa.getTransO, hk, h2]
        | none => simp [Dfa.getTransO, hk, h2]

theorem getTransO_applyTransList (l : List (S × A × S)) :
    ∀ (m : Dfa S A) (s : S) (a : A),
      (applyTransList m l).getTransO s a =
        match m.getTransO s a with
        | some d => some d
        | none => firstDest l s a := by
  induction l with
  | nil =>
      intro m s a
      cases h : m.getTransO s a <;> simp [applyTransList, firstDest, h]
  | cons t rest ih =>
      intro m s a
      have hstep :
          applyTransList m (t :: rest) =
            applyTransList (m.addTrans t.1 t.2.1 t.2.2) rest := rfl
      rw [hstep, ih, getTransO_addTrans]
      cases h : m.getTransO s a with
      | some d => rfl
      | none =>
          simp only [firstDest]
          by_cases hk : (t.1, t.2.1) = (s, a) <;> simp [hk]

theorem applyMut_states_subset (m : Dfa S A) (mu : Mutation S A) :
    m.states ⊆ (applyMut m mu).states := by
  cases mu with
  | addState s => exact Finset.subset_insert s m.states
  | addSymbol a => exact Finset.Subset.refl _
  | addTrans s a d =>
      exact (Finset.subset_insert s m.states).trans (Finset.subset_insert d _)
  | addFinState s => exact Finset.subset_insert s m.states
  | setInitState s => exact Finset.subset_insert s m.states

theorem applyMut_alphabet_subset (m : Dfa S A) (mu : Mutation S A) :
    m.alphabet ⊆ (applyMut m mu).alphabet := by
  cases mu with
  | addState s => exact Finset.Subset.refl _
  | addSymbol a => exact Finset.subset_insert a m.alphabet
  | addTrans s a d => exact Finset.subset_insert a m.alphabet
  | addFinState s => exact Finset.Subset.refl _
  | setInitState s => exact Finset.Subset.refl _

theorem applyMut_finStates_subset (m : Dfa S A) (mu : Mutation S A) :
    m.finStates ⊆ (applyMut m mu).finStates := by
  cases mu with
  | addState s => exact Finset.Subset.refl _
  | addSymbol a => exact Finset.Subset.refl _
  | addTrans s a d => exact Finset.Subset.refl _
  | addFinState s => exact Finset.subset_insert s m.finStates
  | setInitState s => exact Finset.Subset.refl _

theorem applyMut_lookup_pres (m : Dfa S A) (mu : Mutation S A) (k : S × A)
    (d : S) (h : lookupT m.transTable k = some d) :
    lookupT (applyMut m mu).transTable k = some d := by
  cases mu with
  | addState s => exact h
  | addSymbol a => exact h
  | addTrans s a d1 => exact lookupT_insertT_pres m.transTable (s, a) k d1 d h
  | addFinState s => exact h
  | setInitState s => exact h

theorem applyMut_transLen (m : Dfa S A) (mu : Mutation S A) :
    m.transTable.length ≤ (applyMut m mu).transTable.length := by
  cases mu with
  | addState s => exact le_refl _
  | addSymbol a => exact le_refl _
  | addTrans s a d => exact length_insertT m.transTable (s, a) d
  | addFinState s => exact le_refl _
  | setInitState s => exact le_refl _

theorem applyMut_init_pres (m : Dfa S A) (mu : Mutation S A)
    (hmu : isSetInit mu = false) (hne : m.states.Nonempty) :
    (applyMut m mu).init = m.init := by
  have hcard : m.states.card ≠ 0 := by
    simp [Finset.card_eq_zero, hne.ne_empty]
  cases mu with
  | addState s => simp [applyMut, Dfa.addState, hcard]
  | addSymbol a => rfl
  | addTrans s a d =>
      simp [applyMut, Dfa.addTrans, Dfa.addSymbol, Dfa.addState, hcard,
        Finset.card_eq_zero]
  | addFinState s => rfl
  | setInitState s => simp [isSetInit] at hmu

theorem applyMuts_init_pres (l : List (Mutation S A)) :
    ∀ (m : Dfa S A), (∀ mu ∈ l, isSetInit mu = false) → m.states.Nonempty →
      (applyMuts m l).init = m.init := by
  induction l with
  | nil => intro m _ _; rfl
  | cons mu rest ih =>
      intro m hno hne
      have h1 := applyMut_init_pres m mu (hno mu (by simp)) hne
      have h2 : (applyMut m mu).states.Nonempty :=
        hne.mono (applyMut_states_subset m mu)
      have hstep : applyMuts m (mu :: rest) = applyMuts (applyMut m mu) rest := rfl
      rw [hstep, ih (applyMut m mu) (fun x hx => hno x (by simp [hx])) h2, h1]

theorem firstDefaultInit_aux (l : List (Mutation S A)) :
    ∀ (m : Dfa S A), (∀ mu ∈ l, isSetInit mu = false) → m.states = ∅ →
      ((∀ s, firstDefaultInit l = some s → (applyMuts m l).init = s)
        ∧ (firstDefaultInit l = none → (applyMuts m l).init = m.init)) := by
  induction l with
  | nil =>
      intro m _ _
      refine ⟨fun s h => ?_, fun _ => rfl⟩
      cases h
  | cons mu rest ih =>
      intro m hno hemp
      have hnorest : ∀ x ∈ rest, isSetInit x = false :=
        fun x hx => hno x (by simp [hx])
      cases mu with
      | addState s0 =>
          have hinit : (applyMut m (.addState s0)).init = s0 := by
            simp [applyMut, Dfa.addState, hemp]
          have hne : (applyMut m (.addState s0)).states.Nonempty := by
            simp [applyMut, Dfa.addState]
          have hpres := applyMuts_init_pres rest _ hnorest hne
          constructor
          · intro s hs
            simp only [firstDefaultInit, Option.some.injEq] at hs
            subst hs
            show (applyMuts (applyMut m (.addState s0)) rest).init = s0
            rw [hpres, hinit]
          · intro hs; simp [firstDefaultInit] at hs
      | addSymbol a0 =>
          have hemp2 : (applyMut m (.addSymbol a0)).states = ∅ := hemp
          exact ih (applyMut m (.addSymbol a0)) hnorest hemp2
      | addTrans s0 a0 d0 =>
          have hinit : (applyMut m (.addTrans s0 a0 d0)).init = s0 := by
            simp [applyMut, Dfa.addTrans, Dfa.addSymbol, Dfa.addState, hemp,
              Finset.card_eq_zero]
          have hne : (applyMut m (.addTrans s0 a0 d0)).states.Nonempty := by
            simp [applyMut, Dfa.addTrans, Dfa.addSymbol, Dfa.addState]
          have hpres := applyMuts_init_pres rest _ hnorest hne
          constructor
          · intro s hs
            simp only [firstDefaultInit, Option.some.injEq] at hs
            subst hs
            show (applyMuts (applyMut m (.addTrans s0 a0 d0)) rest).init = s0
            rw [hpres, hinit]
          · intro hs; simp [firstDefaultInit] at hs
      | addFinState s0 =>
          constructor
          · intro s hs; simp [firstDefaultInit] at hs
          · intro _
            have hne : (applyMut m (.addFinState s0)).states.Nonempty := by
              simp [applyMut, Dfa.addFinState]
            have hpres := applyMuts_init_pres rest _ hnorest hne
            show (applyMuts (applyMut m (.addFinState s0)) rest).init = m.init
            rw [hpres]
            rfl
      | setInitState s0 =>
          have hbad := hno (Mutation.setInitState s0) (by simp)
          simp [isSetInit] at hbad

/-! Claim theorems. -/

/-- C1 (counterexample): re-adding a transition for an existing
(state, symbol) pair does not overwrite the previous destination:
after `addTrans(0,'a',1); addTrans(0,'a',2)` the lookup still yields `1`,
not the most recently supplied `2` — `std::map::insert` keeps the old
mapping. -/
theorem c1_counterexample :
    (((Dfa.mkD 0 : Dfa Int Char).addTrans 0 'a' 1).addTrans 0 'a' 2).getTransO
        0 'a' = some 1
    ∧ some (1 : Int) ≠ some 2 := by decide

/-- C1 (amended): for every state `s` and symbol `a`, after any sequence of
`addTrans` calls, `getTrans(s, a)` yields at most one destination, and that
destination equals the one the automaton already had for `(s, a)` or, failing
that, the one supplied by the EARLIEST `addTrans(s, a, ·)` call of the
sequence: re-adding a transition for an existing pair is a silent no-op
(first write wins). -/
theorem c1_first_write_wins (m : Dfa S A) (l : List (S × A × S)) (s : S)
    (a : A) :
    (applyTransList m l).getTransO s a =
      match m.getTransO s a with
      | some d => some d
      | none => firstDest l s a :=
  getTransO_applyTransList l m s a

/-- C2: if the run reaches index `i` and the automaton has no transition from
the state reached on the symbol at index `i`, `play` returns `NoTrans`
immediately: the final position is `i` (not incremented past the failed
symbol), the last symbol is the unmatched one, and the current state is the
state reached before the failed step. -/
theorem c2_noTrans_halts (dfa : Dfa S A) (p : PlayerSt S A) (seq : List A)
    (i : Nat) (hi : i < seq.length) (si : S)
    (hrun : deltaStar dfa dfa.getInitState (seq.take i) = some si)
    (hmiss : dfa.getTransO si (seq.get ⟨i, hi⟩) = none) :
    playResult dfa p seq = Result.NoTrans
    ∧ (playFinal dfa p seq).curPos = (i : Int)
    ∧ (playFinal dfa p seq).lastSymb = seq.get ⟨i, hi⟩
    ∧ (playFinal dfa p seq).curState = si := by
  have h := playGo_fail dfa seq i hi dfa.getInitState 0 p.lastSymb si hrun hmiss
  rw [playResult_eq, playFinal_eq]
  rw [h.1, h.2]
  simp

/-- C2 witness: on the automaton with single transition (0,'a')→1, the input
"ab" fails at index 1 in state 1 with last symbol 'b'. -/
theorem c2_noTrans_halts_witness :
    deltaStar pDfa pDfa.getInitState ((['a', 'b'] : List Char).take 1) = some 1
    ∧ pDfa.getTransO 1 'b' = none
    ∧ playResult pDfa pl0 ['a', 'b'] = Result.NoTrans
    ∧ (playFinal pDfa pl0 ['a', 'b']).curPos = 1
    ∧ (playFinal pDfa pl0 ['a', 'b']).lastSymb = 'b'
    ∧ (playFinal pDfa pl0 ['a', 'b']).curState = 1 := by
  have h := c2_noTrans_halts pDfa pl0 ['a', 'b'] 1 (by decide) 1 (by decide)
    (by decide)
  exact ⟨by decide, by decide, h.1, by rw [h.2.1]; decide,
    by rw [h.2.2.1]; decide, h.2.2.2⟩

/-- C3: when every symbol of the input is consumed, `play` returns `Ok`
exactly when the final state is accepting and `NonFinState` otherwise; the
final state is the state reached, the final position is the sequence length
and the last symbol is the last input symbol. -/
theorem c3_full_consumption (dfa : Dfa S A) (p : PlayerSt S A) (seq : List A)
    (s2 : S) (h : deltaStar dfa dfa.getInitState seq = some s2) :
    playResult dfa p seq =
        (if dfa.hasFinState s2 then Result.Ok else Result.NonFinState)
    ∧ (playFinal dfa p seq).curState = s2
    ∧ (playFinal dfa p seq).curPos = (seq.length : Int)
    ∧ (playFinal dfa p seq).lastSymb = seq.getLastD p.lastSymb := by
  have hr := playGo_success dfa seq dfa.getInitState 0 p.lastSymb s2 h
  rw [playResult_eq, playFinal_eq]
  rw [hr.1, hr.2]
  simp

/-- C3 witness: the spec's concrete scenario: on the "contains 01" automaton,
`play(['1','0','0'])` returns `NonFinState` with final state 1, final
position 3, last symbol '0'. -/
theorem c3_full_consumption_witness :
    deltaStar exDfa exDfa.getInitState ['1', '0', '0'] = some 1
    ∧ playResult exDfa pl0 ['1', '0', '0'] = Result.NonFinState
    ∧ (playFinal exDfa pl0 ['1', '0', '0']).curState = 1
    ∧ (playFinal exDfa pl0 ['1', '0', '0']).curPos = 3
    ∧ (playFinal exDfa pl0 ['1', '0', '0']).lastSymb = '0' := by
  have h := c3_full_consumption exDfa pl0 ['1', '0', '0'] 1 (by decide)
  exact ⟨by decide, by rw [h.1]; decide, h.2.1, by rw [h.2.2.1]; decide,
    by rw [h.2.2.2]; decide⟩

/-- C4 (counterexample): a state whose first insertion happens through
`addFinState` does not become the initial state: on a fresh automaton,
`addFinState(5)` inserts state 5 yet `getInitState()` still returns the
indeterminate value `_init` held before (0 here, 3 for a different
garbage value). -/
theorem c4_counterexample :
    ((Dfa.mkD 0 : Dfa Int Char).addFinState 5).getStatesNum = 1
    ∧ ((Dfa.mkD 0 : Dfa Int Char).addFinState 5).getInitState = 0
    ∧ ((Dfa.mkD 3 : Dfa Int Char).addFinState 5).getInitState = 3
    ∧ (0 : Int) ≠ 5 := by decide

/-- C4 (amended): on an automaton on which no state has been explicitly set
as initial, the first state ever added becomes the initial state by default
provided it is inserted via `addState` or `addTrans`; when the first
state-inserting call is `addFinState` (which bypasses `addState`), no state
ever becomes initial by default and `getInitState()` keeps returning the
uninitialized `_init` value. -/
theorem c4_default_initial (g : S) (l : List (Mutation S A))
    (hno : ∀ mu ∈ l, isSetInit mu = false) :
    (∀ s, firstDefaultInit l = some s →
        (applyMuts (Dfa.mkD g) l).getInitState = s)
    ∧ (firstDefaultInit l = none →
        (applyMuts (Dfa.mkD g) l).getInitState = g) :=
  firstDefaultInit_aux l (Dfa.mkD g) hno rfl

/-- C4 witness: after `addSymbol('x'); addTrans(1,'a',2); addFinState(7)` on
a fresh automaton, the initial state is 1, the source of the first
`addTrans`. -/
theorem c4_default_initial_witness :
    firstDefaultInit
        ([Mutation.addSymbol 'x', Mutation.addTrans 1 'a' 2,
          Mutation.addFinState 7] : List (Mutation Int Char)) = some 1
    ∧ (applyMuts (Dfa.mkD (9 : Int))
        [Mutation.addSymbol 'x', Mutation.addTrans 1 'a' 2,
         Mutation.addFinState 7]).getInitState = 1 := by
  have h := c4_default_initial (9 : Int)
    [Mutation.addSymbol 'x', Mutation.addTrans 1 'a' 2,
     Mutation.addFinState 7] (by decide)
  exact ⟨by decide, h.1 1 (by decide)⟩

/-- C5 (counterexample): the bulk constructor does not let later triples
overwrite earlier ones for the same (state, symbol) pair: with triples
(0,'a')→1 then (0,'a')→2 it keeps destination 1, so it differs from the
spec-worded overwriting procedure, which would keep 2. -/
theorem c5_counterexample :
    Dfa.mk3 9 0 [((0 : Int), 'a', 1), (0, 'a', 2)] ([] : List Int) ≠
        specOverwriteBuild 9 0 [(0, 'a', 1), (0, 'a', 2)] []
    ∧ (Dfa.mk3 9 0 [((0 : Int), 'a', 1), (0, 'a', 2)]
        ([] : List Int)).getTransO 0 'a' = some 1
    ∧ (specOverwriteBuild 9 0 [((0 : Int), 'a', 1), (0, 'a', 2)]
        ([] : List Int)).getTransO 0 'a' = some 2 := by decide

/-- C5 (amended): the bulk constructor produces the same automaton as
applying `addTrans` to each triple in the given order (for duplicate
(state, symbol) pairs the earliest triple's destination is kept, since
`addTrans` never overwrites), then `setInitState`, then `addFinState` for
each accepting state, on a default-constructed automaton. -/
theorem c5_bulk_incremental_equiv (g initSt : S) (l : List (S × A × S))
    (fin : List S) :
    Dfa.mk3 g initSt l fin = incrementalBuild g initSt l fin := rfl

/-- C6: for a fully consumed input of length n, the attached observer
receives exactly one `onStateChanging(init, init)` call followed by exactly
n `onTransFired` calls, in input order, each reporting the source, symbol
and destination of the transition actually taken, and each invoked while the
player's current state still equals the reported source (before the state
update). -/
theorem c6_observer_ordering (dfa : Dfa S A) (p : PlayerSt S A) (seq : List A)
    (s2 : S) (h : deltaStar dfa dfa.getInitState seq = some s2) :
    (playTrace dfa p seq).map Prod.fst =
        Event.stateChanging dfa.getInitState dfa.getInitState ::
          (fires dfa dfa.getInitState seq).map
            (fun t => Event.transFired t.1 t.2.1 t.2.2)
    ∧ (fires dfa dfa.getInitState seq).length = seq.length
    ∧ (fires dfa dfa.getInitState seq).map (fun t => t.2.1) = seq
    ∧ (∀ t ∈ fires dfa dfa.getInitState seq,
        dfa.getTransO t.1 t.2.1 = some t.2.2)
    ∧ (∀ pr ∈ playTrace dfa p seq, ∀ (s0 : S) (a0 : A) (d0 : S),
        pr.1 = Event.transFired s0 a0 d0 → pr.2.curState = s0) := by
  refine ⟨?_, fires_length dfa seq dfa.getInitState s2 h,
    fires_symbols dfa seq dfa.getInitState s2 h,
    fires_sound dfa seq dfa.getInitState, ?_⟩
  · rw [playTrace_eq]
    simp [traceGo_events]
  · intro pr hpr s0 a0 d0 hev
    rw [playTrace_eq] at hpr
    rcases List.mem_cons.mp hpr with h1 | h2
    · subst h1; simp at hev
    · exact traceGo_src dfa seq dfa.getInitState 0 pr h2 s0 a0 d0 hev

/-- C6 witness: on the example automaton, replaying "01" produces the
starting `onStateChanging` call followed by the two fired transitions, two
in number. -/
theorem c6_observer_ordering_witness :
    deltaStar exDfa exDfa.getInitState ['0', '1'] = some 2
    ∧ (playTrace exDfa pl0 ['0', '1']).map Prod.fst =
        Event.stateChanging exDfa.getInitState exDfa.getInitState ::
          (fires exDfa exDfa.getInitState ['0', '1']).map
            (fun t => Event.transFired t.1 t.2.1 t.2.2)
    ∧ (fires exDfa exDfa.getInitState ['0', '1']).length = 2 := by
  have h := c6_observer_ordering exDfa pl0 ['0', '1'] 2 (by decide)
  exact ⟨by decide, h.1, by rw [h.2.1]; decide⟩

/-- C7: replaying the same sequence twice on the same unmutated automaton
yields the same result and the same final current state and position: each
`play` call restarts from the automaton's initial state, discarding the
previous run's values. -/
theorem c7_idempotent_rerun (dfa : Dfa S A) (p : PlayerSt S A)
    (seq : List A) :
    playResult dfa (playFinal dfa p seq) seq = playResult dfa p seq
    ∧ (playFinal dfa (playFinal dfa p seq) seq).curState =
        (playFinal dfa p seq).curState
    ∧ (playFinal dfa (playFinal dfa p seq) seq).curPos =
        (playFinal dfa p seq).curPos := by
  have h := playGo_indep dfa seq dfa.getInitState 0
    (playFinal dfa p seq).lastSymb p.lastSymb
  refine ⟨?_, ?_, ?_⟩
  · rw [playResult_eq, playResult_eq]; exact h.1
  · rw [playFinal_eq dfa (playFinal dfa p seq) seq, playFinal_eq dfa p seq]
    exact h.2.1
  · rw [playFinal_eq dfa (playFinal dfa p seq) seq, playFinal_eq dfa p seq]
    exact h.2.2

/-- C8 (counterexample): `getCurState()` and `getLastSymbol()` on a freshly
constructed player do not return a defined sentinel: the constructor leaves
`_curState` and `_lastSymb` uninitialized, so their value is whatever
indeterminate content the members held — two different garbage contents give
two different accessor results. Only `_curPos` is assigned (-1). -/
theorem c8_counterexample :
    (mkPlayer (0 : Int) 'a').curState = 0
    ∧ (mkPlayer (1 : Int) 'a').curState = 1
    ∧ (mkPlayer (0 : Int) 'a').lastSymb = 'a'
    ∧ (mkPlayer (0 : Int) 'b').lastSymb = 'b'
    ∧ (0 : Int) ≠ 1
    ∧ 'a' ≠ 'b' := by decide

/-- C8 (amended): the constructor assigns only the position sentinel:
`getCurPos()` returns -1 before any `play` call, a value that can never
occur during or after a real run (every position a run produces is ≥ 0),
while `getCurState()` and `getLastSymbol()` return the uninitialized,
indeterminate member contents. -/
theorem c8_position_sentinel (gs : S) (ga : A) (dfa : Dfa S A)
    (p : PlayerSt S A) (seq : List A) :
    (mkPlayer gs ga : PlayerSt S A).curPos = -1
    ∧ (mkPlayer gs ga : PlayerSt S A).curState = gs
    ∧ (mkPlayer gs ga : PlayerSt S A).lastSymb = ga
    ∧ 0 ≤ (playFinal dfa p seq).curPos
    ∧ (∀ pr ∈ playTrace dfa p seq, 0 ≤ pr.2.curPos) := by
  refine ⟨rfl, rfl, rfl, ?_, ?_⟩
  · rw [playFinal_eq]
    exact playGo_pos dfa seq ⟨dfa.getInitState, 0, p.lastSymb⟩ (by simp)
  · intro pr hpr
    rw [playTrace_eq] at hpr
    rcases List.mem_cons.mp hpr with h1 | h2
    · subst h1; simp
    · exact traceGo_pos dfa seq dfa.getInitState 0 (by simp) pr h2

/-- C8 witness: the concrete fresh player carries position sentinel -1, and
a finished run's position is non-negative. -/
theorem c8_position_sentinel_witness :
    (mkPlayer (7 : Int) 'z').curPos = -1
    ∧ 0 ≤ (playFinal exDfa pl0 ['0', '1']).curPos := by
  have h := c8_position_sentinel (7 : Int) 'z' exDfa pl0 ['0', '1']
  exact ⟨h.1, h.2.2.2.1⟩

/-- C9: `play` on the empty sequence never returns `NoTrans`: it fires
exactly one `onStateChanging(init, init)` call and no `onTransFired` call,
ends at position 0 in the initial state, and returns `Ok` exactly when the
initial state is accepting, `NonFinState` otherwise. -/
theorem c9_empty_sequence (dfa : Dfa S A) (p : PlayerSt S A) :
    playResult dfa p [] =
        (if dfa.hasFinState dfa.getInitState then Result.Ok
         else Result.NonFinState)
    ∧ playResult dfa p [] ≠ Result.NoTrans
    ∧ (playFinal dfa p []).curState = dfa.getInitState
    ∧ (playFinal dfa p []).curPos = 0
    ∧ playTrace dfa p [] =
        [(Event.stateChanging dfa.getInitState dfa.getInitState,
          ⟨dfa.getInitState, 0, p.lastSymb⟩)] := by
  have h1 : playResult dfa p [] =
      (if dfa.hasFinState dfa.getInitState then Result.Ok
       else Result.NonFinState) := rfl
  refine ⟨h1, ?_, rfl, rfl, ?_⟩
  · rw [h1]; split <;> simp
  · rw [playTrace_eq]; rfl

/-- C9 witness: on the example automaton (whose initial state 0 is not
accepting) the empty input yields `NonFinState` at position 0. -/
theorem c9_empty_sequence_witness :
    playResult exDfa pl0 [] = Result.NonFinState
    ∧ (playFinal exDfa pl0 []).curPos = 0 := by
  have h := c9_empty_sequence exDfa pl0
  exact ⟨by rw [h.1]; decide, h.2.2.2.1⟩

/-- C10: every mutating operation only grows the automaton: the state set,
alphabet, accepting set are supersets of their previous values, every
existing transition mapping survives, and the four cardinality counters
never decrease. -/
theorem c10_mutations_monotone (m : Dfa S A) (mu : Mutation S A) :
    m.states ⊆ (applyMut m mu).states
    ∧ m.alphabet ⊆ (applyMut m mu).alphabet
    ∧ m.finStates ⊆ (applyMut m mu).finStates
    ∧ (∀ (k : S × A) (d : S), lookupT m.transTable k = some d →
        lookupT (applyMut m mu).transTable k = some d)
    ∧ m.getStatesNum ≤ (applyMut m mu).getStatesNum
    ∧ m.getSymbolsNum ≤ (applyMut m mu).getSymbolsNum
    ∧ m.getTransNum ≤ (applyMut m mu).getTransNum
    ∧ m.getFinStatesNum ≤ (applyMut m mu).getFinStatesNum :=
  ⟨applyMut_states_subset m mu, applyMut_alphabet_subset m mu,
   applyMut_finStates_subset m mu,
   fun k d h => applyMut_lookup_pres m mu k d h,
   Finset.card_le_card (applyMut_states_subset m mu),
   Finset.card_le_card (applyMut_alphabet_subset m mu),
   applyMut_transLen m mu,
   Finset.card_le_card (applyMut_finStates_subset m mu)⟩

/-- C10 witness: adding the transition (5,'x')→6 to the example automaton
does not decrease the state and transition counters. -/
theorem c10_mutations_monotone_witness :
    exDfa.getStatesNum ≤
        (applyMut exDfa (Mutation.addTrans 5 'x' 6)).getStatesNum
    ∧ exDfa.getTransNum ≤
        (applyMut exDfa (Mutation.addTrans 5 'x' 6)).getTransNum := by
  have h := c10_mutations_monotone exDfa (Mutation.addTrans 5 'x' 6)
  exact ⟨h.2.2.2.2.1, h.2.2.2.2.2.2.1⟩

end DfaSpec
